import Mathlib

set_option maxRecDepth 8192

/-!
Verification of the pattern-update script `update_patterns.py`.

The script reads one file into memory, applies three literal substring
replacements (Python `str.replace`) in a fixed order, writes the result
back, and prints one confirmation line.  We embed the content
transformation as a function on `List Char` and the whole run as a pure
function from the read result to a record of the write, the printed
output and the failure flag.
-/

namespace UpdatePatterns

/-- Old questionNumber pattern literal (line 6 of `update_patterns.py`). -/
def oldQuestion : List Char :=
  "questionNumber: /^(?:Q\\.?\\s*)?(\\d+)[\\.)](?:\\s+(.*))?$/i,".data

/-- New questionNumber pattern literal (line 7). -/
def newQuestion : List Char :=
  "questionNumber: /^(?:Q\\.?\\s*)?(\\d+)[\\.:)](?:\\s+(.*))?$/i,".data

/-- Old option pattern literal (line 12). -/
def oldOption : List Char :=
  "option: /^\\s*([A-D])[\\.\\)\\:\\-\\s]+(.+)$/i,".data

/-- New option pattern literal (line 13). -/
def newOption : List Char :=
  "option: /^\\s*([A-D0-9])[\\.\\)\\:\\-\\s]+(.+)$/i,".data

/-- Old answer pattern literal (line 18). -/
def oldAnswer : List Char :=
  "answer: /^(?:Ans(?:wer)?|Correct\\s+Answer|Key|Solution)\\s*[:\\-]?\\s*([A-D])/i,".data

/-- New answer pattern literal (line 19). -/
def newAnswer : List Char :=
  "answer: /^(?:Ans(?:wer)?|Correct\\s+Answer|Key|Solution)\\s*[:\\-]?\\s*([A-D0-9])/i,".data

/-- Fueled left-to-right scan implementing Python `str.replace` for a
nonempty pattern `p`: at each position, if `p` matches, emit `r` and skip
past the match (so matches are non-overlapping and all occurrences are
replaced); otherwise copy one character.  The script only ever calls
`replace` with nonempty patterns; for an empty `p` this scan copies the
input unchanged.  The fuel argument makes the recursion structural; it is
instantiated with the length of the input. -/
def replaceFuel (p r : List Char) : Nat → List Char → List Char
  | _, [] => []
  | 0, s => s
  | n + 1, c :: s =>
    if !p.isEmpty && p.isPrefixOf (c :: s) then
      r ++ replaceFuel p r n ((c :: s).drop p.length)
    else
      c :: replaceFuel p r n s

/-- Python `content.replace(p, r)` on character lists. -/
def replaceL (p r s : List Char) : List Char :=
  replaceFuel p r s.length s

/-- Fueled scan implementing Python `str.split(p)` for a nonempty
pattern: the maximal gaps between the non-overlapping left-to-right
matches of `p`.  Used to state that `replaceL` rewrites every occurrence,
and (with a one-character separator) to talk about the lines of the
file. -/
def splitFuel (p : List Char) : Nat → List Char → List (List Char)
  | _, [] => [[]]
  | 0, s => [s]
  | n + 1, c :: s =>
    if !p.isEmpty && p.isPrefixOf (c :: s) then
      [] :: splitFuel p n ((c :: s).drop p.length)
    else
      match splitFuel p n s with
      | [] => [[c]]
      | t :: ts => (c :: t) :: ts

/-- Python `s.split(p)` on character lists. -/
def splitOnL (p s : List Char) : List (List Char) :=
  splitFuel p s.length s

/-- The in-memory transformation of the file content: the three
`content.replace` calls of the script, in source order (questionNumber,
then option, then answer), each applied to the result of the previous
one. -/
def updateContent (c : List Char) : List Char :=
  replaceL oldAnswer newAnswer
    (replaceL oldOption newOption
      (replaceL oldQuestion newQuestion c))

/-- The three replacement rules in their fixed order. -/
def rules : List (List Char × List Char) :=
  [(oldQuestion, newQuestion), (oldOption, newOption), (oldAnswer, newAnswer)]

/-- Sequential application of the ordered rule list, each rule applied to
the cumulative result of the prior rules. -/
def applyRules (c : List Char) : List Char :=
  rules.foldl (fun acc pr => replaceL pr.1 pr.2 acc) c

/-- Observable outcome of one run of the script: the content written to
the target file (`none` when no write happened), the lines printed to
standard output, and whether the run failed with a propagated error. -/
structure RunResult where
  written : Option (List Char)
  printed : List String
  failed : Bool
  deriving Repr, DecidableEq

/-- One run of the script, as a function of the result of the initial
read (`none` models a failed read, e.g. a missing file).  On a failed
read the script aborts before the write and the print; on a successful
read it writes the transformed content and prints the confirmation
line. -/
def runScript : Option (List Char) → RunResult
  | none => { written := none, printed := [], failed := true }
  | some content =>
      { written := some (updateContent content)
        printed := ["Updated all patterns"]
        failed := false }

/-! ### Basic facts about the fueled definitions -/

theorem replaceFuel_nil (p r : List Char) (n : Nat) :
    replaceFuel p r n [] = [] := by
  cases n <;> rfl

theorem splitFuel_nil (p : List Char) (n : Nat) :
    splitFuel p n [] = [[]] := by
  cases n <;> rfl

/-- The fuel is irrelevant as soon as it dominates the length. -/
theorem replaceFuel_congr (p r : List Char) :
    ∀ n m s, s.length ≤ n → s.length ≤ m →
      replaceFuel p r n s = replaceFuel p r m s := by
  intro n
  induction n with
  | zero =>
      intro m s hn _
      have : s = [] := List.length_eq_zero.mp (Nat.le_zero.mp hn)
      subst this
      rw [replaceFuel_nil, replaceFuel_nil]
  | succ n ih =>
      intro m s hn hm
      cases s with
      | nil => rw [replaceFuel_nil, replaceFuel_nil]
      | cons c s' =>
          cases m with
          | zero => simp at hm
          | succ m' =>
              show replaceFuel p r (n + 1) (c :: s') = replaceFuel p r (m' + 1) (c :: s')
              rw [replaceFuel, replaceFuel]
              rcases hcond : (!p.isEmpty && p.isPrefixOf (c :: s')) with _ | _
              · simp only [Bool.false_eq_true, if_false]
                have h1 : s'.length ≤ n := Nat.le_of_succ_le_succ hn
                have h2 : s'.length ≤ m' := Nat.le_of_succ_le_succ hm
                rw [ih m' s' h1 h2]
              · simp only [if_true]
                have hpne : p ≠ [] := by
                  intro h
                  subst h
                  simp [List.isEmpty] at hcond
                have hplen : 1 ≤ p.length := by
                  cases p with
                  | nil => exact absurd rfl hpne
                  | cons a b => simp
                have hdlen : ((c :: s').drop p.length).length ≤ s'.length := by
                  rw [List.length_drop]
                  simp only [List.length_cons]
                  omega
                rw [ih m' _ (Nat.le_trans hdlen (Nat.le_of_succ_le_succ hn))
                  (Nat.le_trans hdlen (Nat.le_of_succ_le_succ hm))]

theorem splitFuel_congr (p : List Char) :
    ∀ n m s, s.length ≤ n → s.length ≤ m →
      splitFuel p n s = splitFuel p m s := by
  intro n
  induction n with
  | zero =>
      intro m s hn _
      have : s = [] := List.length_eq_zero.mp (Nat.le_zero.mp hn)
      subst this
      rw [splitFuel_nil, splitFuel_nil]
  | succ n ih =>
      intro m s hn hm
      cases s with
      | nil => rw [splitFuel_nil, splitFuel_nil]
      | cons c s' =>
          cases m with
          | zero => simp at hm
          | succ m' =>
              show splitFuel p (n + 1) (c :: s') = splitFuel p (m' + 1) (c :: s')
              rw [splitFuel, splitFuel]
              rcases hcond : (!p.isEmpty && p.isPrefixOf (c :: s')) with _ | _
              · simp only [Bool.false_eq_true, if_false]
                have h1 : s'.length ≤ n := Nat.le_of_succ_le_succ hn
                have h2 : s'.length ≤ m' := Nat.le_of_succ_le_succ hm
                rw [ih m' s' h1 h2]
              · simp only [if_true]
                have hpne : p ≠ [] := by
                  intro h
                  subst h
                  simp [List.isEmpty] at hcond
                have hplen : 1 ≤ p.length := by
                  cases p with
                  | nil => exact absurd rfl hpne
                  | cons a b => simp
                have hdlen : ((c :: s').drop p.length).length ≤ s'.length := by
                  rw [List.length_drop]
                  simp only [List.length_cons]
                  omega
                rw [ih m' _ (Nat.le_trans hdlen (Nat.le_of_succ_le_succ hn))
                  (Nat.le_trans hdlen (Nat.le_of_succ_le_succ hm))]

theorem replaceL_nil (p r : List Char) : replaceL p r [] = [] := rfl

/-- Unfolding: a match at the head is replaced and the scan resumes after
the match. -/
theorem replaceL_cons_pos (p r : List Char) (c : Char) (s : List Char)
    (hp : p ≠ []) (h : p <+: c :: s) :
    replaceL p r (c :: s) = r ++ replaceL p r ((c :: s).drop p.length) := by
  have hcond : (!p.isEmpty && p.isPrefixOf (c :: s)) = true := by
    simp [List.isEmpty_iff, hp, List.isPrefixOf_iff_prefix, h]
  show replaceFuel p r (s.length + 1) (c :: s) = _
  rw [replaceFuel, hcond, if_pos rfl]
  congr 1
  have hplen : 1 ≤ p.length := by
    cases p with
    | nil => exact absurd rfl hp
    | cons a b => simp
  have hdlen : ((c :: s).drop p.length).length ≤ s.length := by
    rw [List.length_drop]
    simp only [List.length_cons]
    omega
  exact replaceFuel_congr p r s.length _ _ hdlen (Nat.le_refl _)

/-- Unfolding: no match at the head copies one character. -/
theorem replaceL_cons_neg (p r : List Char) (c : Char) (s : List Char)
    (h : ¬ p <+: c :: s) :
    replaceL p r (c :: s) = c :: replaceL p r s := by
  have hcond : (!p.isEmpty && p.isPrefixOf (c :: s)) = false := by
    have : p.isPrefixOf (c :: s) = false := by
      rcases hb : p.isPrefixOf (c :: s) with _ | _
      · rfl
      · have hb2 := List.isPrefixOf_iff_prefix.mp hb
        exact absurd hb2 h
    simp [this]
  show replaceFuel p r (s.length + 1) (c :: s) = _
  rw [replaceFuel, hcond]
  simp only [Bool.false_eq_true, if_false]
  rfl

theorem splitOnL_nil (p : List Char) : splitOnL p [] = [[]] := rfl

theorem splitOnL_cons_pos (p : List Char) (c : Char) (s : List Char)
    (hp : p ≠ []) (h : p <+: c :: s) :
    splitOnL p (c :: s) = [] :: splitOnL p ((c :: s).drop p.length) := by
  have hcond : (!p.isEmpty && p.isPrefixOf (c :: s)) = true := by
    simp [List.isEmpty_iff, hp, List.isPrefixOf_iff_prefix, h]
  show splitFuel p (s.length + 1) (c :: s) = _
  rw [splitFuel, hcond, if_pos rfl]
  congr 1
  have hplen : 1 ≤ p.length := by
    cases p with
    | nil => exact absurd rfl hp
    | cons a b => simp
  have hdlen : ((c :: s).drop p.length).length ≤ s.length := by
    rw [List.length_drop]
    simp only [List.length_cons]
    omega
  exact splitFuel_congr p s.length _ _ hdlen (Nat.le_refl _)

theorem splitOnL_cons_neg (p : List Char) (c : Char) (s : List Char)
    (h : ¬ p <+: c :: s) (t : List Char) (ts : List (List Char))
    (hs : splitOnL p s = t :: ts) :
    splitOnL p (c :: s) = (c :: t) :: ts := by
  have hcond : (!p.isEmpty && p.isPrefixOf (c :: s)) = false := by
    have : p.isPrefixOf (c :: s) = false := by
      rcases hb : p.isPrefixOf (c :: s) with _ | _
      · rfl
      · have hb2 := List.isPrefixOf_iff_prefix.mp hb
        exact absurd hb2 h
    simp [this]
  show splitFuel p (s.length + 1) (c :: s) = _
  rw [splitFuel, hcond]
  simp only [Bool.false_eq_true, if_false]
  have : splitFuel p s.length s = t :: ts := hs
  rw [this]

/-- The split is never the empty list of segments. -/
theorem splitOnL_ne_nil (p : List Char) : ∀ s, splitOnL p s ≠ [] := by
  suffices h : ∀ n s, s.length ≤ n → splitOnL p s ≠ [] by
    intro s
    exact h s.length s (Nat.le_refl _)
  intro n
  induction n with
  | zero =>
      intro s hs
      have : s = [] := List.length_eq_zero.mp (Nat.le_zero.mp hs)
      subst this
      simp [splitOnL_nil]
  | succ n ih =>
      intro s hs
      cases s with
      | nil => simp [splitOnL_nil]
      | cons c s' =>
          show splitFuel p (s'.length + 1) (c :: s') ≠ []
          rw [splitFuel]
          rcases hcond : (!p.isEmpty && p.isPrefixOf (c :: s')) with _ | _
          · simp only [Bool.false_eq_true, if_false]
            rcases hsp : splitFuel p s'.length s' with _ | ⟨t, ts⟩
            · have h1 : splitOnL p s' ≠ [] := ih s' (Nat.le_of_succ_le_succ hs)
              exact absurd hsp h1
            · simp
          · rw [if_pos rfl]
            simp

/-! ### Overlap side conditions

All four predicates below are decidable and are checked by `decide` on
the six concrete pattern literals where they are needed. -/

/-- No left-to-right match of `p` can start inside `a`: every tail of `a`
is prefix-incomparable with `p`. -/
def Incomp (a p : List Char) : Prop :=
  ∀ k < a.length, ¬ (a.drop k <+: p) ∧ ¬ (p <+: a.drop k)

/-- An occurrence of `q` cannot end inside or engulf an inserted copy of
`r`: no nonempty proper suffix of `q` is a prefix of `r`, and `r` does
not occur inside `q`. -/
def TailCond (q r : List Char) : Prop :=
  (∀ l < q.length, 1 ≤ l → ¬ ((r.take l) <:+ q)) ∧ ¬ r <:+: q

/-- Inserting copies of `r` can never create an occurrence of `q`:
`q` is not inside `r`, no tail of `r` starts an occurrence of `q`, and
`TailCond q r`. -/
def Erad (q r : List Char) : Prop :=
  ¬ q <:+: r ∧ (∀ k < r.length, ¬ (r.drop k <+: q)) ∧ TailCond q r

/-- `p` has no nonempty proper border: occurrences of `p` can never
overlap each other. -/
def BorderFree (p : List Char) : Prop :=
  ∀ k < p.length, 1 ≤ k → ¬ (p.drop k <+: p)

instance (a p : List Char) : Decidable (Incomp a p) := by
  unfold Incomp; infer_instance

instance (q r : List Char) : Decidable (TailCond q r) := by
  unfold TailCond; infer_instance

instance (q r : List Char) : Decidable (Erad q r) := by
  unfold Erad; infer_instance

instance (p : List Char) : Decidable (BorderFree p) := by
  unfold BorderFree; infer_instance

/-! ### Prefix and infix utilities -/

theorem prefix_cases_append {l a b : List Char} (h : l <+: a ++ b) :
    l <+: a ∨ a <+: l :=
  List.prefix_or_prefix_of_prefix h (List.prefix_append a b)

/-- An infix of `a ++ b` lies in `a`, lies in `b`, or spans the border. -/
theorem infix_append_cases {q a b : List Char} (h : q <:+: a ++ b) :
    q <:+: a ∨ q <:+: b ∨
      ∃ q₁ q₂, q = q₁ ++ q₂ ∧ q₁ ≠ [] ∧ q₂ ≠ [] ∧ q₁ <:+ a ∧ q₂ <+: b := by
  induction a with
  | nil =>
      right; left
      simpa using h
  | cons c a' ih =>
      rw [List.cons_append] at h
      rcases List.infix_cons_iff.mp h with hpre | hinf
      · have hpre' : q <+: (c :: a') ++ b := by simpa using hpre
        rcases prefix_cases_append hpre' with h1 | h2
        · exact Or.inl h1.isInfix
        · obtain ⟨q₂, hq⟩ := h2
          by_cases hq2 : q₂ = []
          · subst hq2
            left
            rw [← hq, List.append_nil]
          · right; right
            refine ⟨c :: a', q₂, hq.symm, by simp, hq2, List.suffix_refl _, ?_⟩
            have hh : (c :: a') ++ q₂ <+: (c :: a') ++ b := by rw [hq]; exact hpre'
            exact (List.prefix_append_right_inj _).mp hh
      · rcases ih hinf with h1 | h2 | ⟨q₁, q₂, hq, hn1, hn2, hs, hp2⟩
        · exact Or.inl (List.infix_cons h1)
        · exact Or.inr (Or.inl h2)
        · exact Or.inr (Or.inr ⟨q₁, q₂, hq, hn1, hn2, hs.trans (List.suffix_cons c a'), hp2⟩)

/-- If the pattern does not occur, the replacement is a no-op
(Python replace-if-present semantics). -/
theorem replaceL_eq_self {p r s : List Char} (h : ¬ p <:+: s) :
    replaceL p r s = s := by
  induction s with
  | nil => rfl
  | cons c s' ih =>
      have hnp : ¬ p <+: c :: s' := fun hp => h hp.isInfix
      rw [replaceL_cons_neg p r c s' hnp, ih fun hi => h (List.infix_cons hi)]

/-- The scan passes over a block `a` inside which no match of `p` can
start. -/
theorem replaceL_pass_over {p r : List Char} :
    ∀ a, Incomp a p → ∀ y, replaceL p r (a ++ y) = a ++ replaceL p r y := by
  intro a
  induction a with
  | nil =>
      intro _ y
      simp
  | cons d a' ih =>
      intro h y
      have h0 := h 0 (by simp)
      rw [List.drop_zero] at h0
      have hnm : ¬ p <+: (d :: a') ++ y := by
        intro hp
        rcases prefix_cases_append hp with h1 | h2
        · exact h0.2 h1
        · exact h0.1 h2
      rw [List.cons_append] at hnm ⊢
      rw [replaceL_cons_neg p r d (a' ++ y) hnm]
      have h' : Incomp a' p := by
        intro k hk
        have hh := h (k + 1) (by simp only [List.length_cons]; omega)
        simpa using hh
      rw [ih h' y]
      simp

/-- If a nonempty proper suffix of `q` is a prefix of the replacement
output, it was already a prefix of the input (given `TailCond q r`).
This is what prevents a partially-matched `q` from being completed by
replaced text further right. -/
theorem replaceL_drop_transfer {p r q : List Char} (hp : p ≠ [])
    (hc1 : ∀ l < q.length, 1 ≤ l → ¬ ((r.take l) <:+ q)) (hc2 : ¬ r <:+: q) :
    ∀ n s, s.length ≤ n → ∀ j, 1 ≤ j → j < q.length →
      q.drop j <+: replaceL p r s → q.drop j <+: s := by
  intro n
  induction n with
  | zero =>
      intro s hs j _ h2 hpre
      have hsnil : s = [] := List.length_eq_zero.mp (Nat.le_zero.mp hs)
      subst hsnil
      rw [replaceL_nil] at hpre
      have := List.eq_nil_of_prefix_nil hpre
      rw [List.drop_eq_nil_iff] at this
      omega
  | succ n ih =>
      intro s hs j h1 h2 hpre
      cases s with
      | nil =>
          rw [replaceL_nil] at hpre
          have := List.eq_nil_of_prefix_nil hpre
          rw [List.drop_eq_nil_iff] at this
          omega
      | cons c s' =>
          by_cases hm : p <+: c :: s'
          · exfalso
            rw [replaceL_cons_pos p r c s' hp hm] at hpre
            rcases prefix_cases_append hpre with hu | hru
            · have hlen : (q.drop j).length < q.length := by
                rw [List.length_drop]; omega
              have hlen1 : 1 ≤ (q.drop j).length := by
                rw [List.length_drop]; omega
              have htake : q.drop j = r.take (q.drop j).length :=
                List.prefix_iff_eq_take.mp hu
              exact hc1 (q.drop j).length hlen hlen1 (htake ▸ List.drop_suffix j q)
            · exact hc2 (List.infix_iff_prefix_suffix.mpr
                ⟨q.drop j, hru, List.drop_suffix j q⟩)
          · rw [replaceL_cons_neg p r c s' hm] at hpre
            have hgd := List.drop_eq_getElem_cons (l := q) (n := j) h2
            rw [hgd] at hpre ⊢
            rw [List.cons_prefix_cons] at hpre
            obtain ⟨hcq, htail⟩ := hpre
            rw [List.cons_prefix_cons]
            refine ⟨hcq, ?_⟩
            by_cases hj1 : j + 1 < q.length
            · exact ih s' (Nat.le_of_succ_le_succ hs) (j + 1) (by omega) hj1 htail
            · have hnil : q.drop (j + 1) = [] := List.drop_eq_nil_of_le (by omega)
              rw [hnil]
              exact List.nil_prefix

/-- Core invariant: replacing `p` by `r` never creates an occurrence of
`q`, provided `Erad q r` holds and either `q` is the replaced pattern
itself or `q` did not occur in the input. -/
theorem replaceL_no_occ {p r q : List Char} (hp : p ≠ []) (hq : q ≠ [])
    (hE : Erad q r) :
    ∀ n s, s.length ≤ n → (q = p ∨ ¬ q <:+: s) → ¬ q <:+: replaceL p r s := by
  obtain ⟨ha, hb, hc1, hc2⟩ := hE
  intro n
  induction n with
  | zero =>
      intro s hs _ hcon
      have hsnil : s = [] := List.length_eq_zero.mp (Nat.le_zero.mp hs)
      subst hsnil
      rw [replaceL_nil] at hcon
      exact hq (List.eq_nil_of_infix_nil hcon)
  | succ n ih =>
      intro s hs hside hcon
      cases s with
      | nil =>
          rw [replaceL_nil] at hcon
          exact hq (List.eq_nil_of_infix_nil hcon)
      | cons c s' =>
          by_cases hm : p <+: c :: s'
          · rw [replaceL_cons_pos p r c s' hp hm] at hcon
            rcases infix_append_cases hcon with h1 | h2 | ⟨q₁, q₂, hqeq, hn1, _, hsuf, _⟩
            · exact ha h1
            · have hside' : q = p ∨ ¬ q <:+: (c :: s').drop p.length := by
                rcases hside with hqp | hni
                · exact Or.inl hqp
                · exact Or.inr fun hi =>
                    hni (hi.trans (List.drop_suffix _ _).isInfix)
              have hplen : 1 ≤ p.length := by
                cases p with
                | nil => exact absurd rfl hp
                | cons a b => simp
              have hdlen : ((c :: s').drop p.length).length ≤ n := by
                rw [List.length_drop]
                simp only [List.length_cons]
                simp only [List.length_cons] at hs
                omega
              exact ih _ hdlen hside' h2
            · obtain ⟨t, ht⟩ := hsuf
              have hk : r.drop t.length = q₁ := by
                rw [← ht]
                exact List.drop_left t q₁
              have hklt : t.length < r.length := by
                rw [← ht, List.length_append]
                cases q₁ with
                | nil => exact absurd rfl hn1
                | cons a b => simp
              have : r.drop t.length <+: q := by
                rw [hk, hqeq]
                exact List.prefix_append q₁ q₂
              exact hb t.length hklt this
          · rw [replaceL_cons_neg p r c s' hm] at hcon
            rcases List.infix_cons_iff.mp hcon with hpre | hinf
            · cases q with
              | nil => exact hq rfl
              | cons q0 qt =>
                  rw [List.cons_prefix_cons] at hpre
                  obtain ⟨hq0, hqt⟩ := hpre
                  have hqps : (q0 :: qt) <+: c :: s' := by
                    rw [List.cons_prefix_cons]
                    refine ⟨hq0, ?_⟩
                    by_cases hl : 1 < (q0 :: qt).length
                    · have htr := replaceL_drop_transfer hp hc1 hc2 s'.length s'
                        (Nat.le_refl _) 1 (by omega) hl (by simpa using hqt)
                      simpa using htr
                    · have hqtnil : qt = [] := by
                        simp only [List.length_cons] at hl
                        have : qt.length = 0 := by omega
                        exact List.length_eq_zero.mp this
                      rw [hqtnil]
                      exact List.nil_prefix
                  rcases hside with hqp | hni
                  · rw [hqp] at hqps
                    exact hm hqps
                  · exact hni hqps.isInfix
            · have hside' : q = p ∨ ¬ q <:+: s' := by
                rcases hside with hqp | hni
                · exact Or.inl hqp
                · exact Or.inr fun hi => hni (List.infix_cons hi)
              exact ih s' (Nat.le_of_succ_le_succ hs) hside' hinf

/-- A match at its own pattern is taken and consumed whole. -/
theorem replaceL_head_match {p : List Char} (r : List Char) (hp : p ≠ [])
    (x : List Char) : replaceL p r (p ++ x) = r ++ replaceL p r x := by
  cases p with
  | nil => exact absurd rfl hp
  | cons a p' =>
      rw [List.cons_append,
        replaceL_cons_pos (a :: p') r a (p' ++ x) hp
          (by rw [← List.cons_append]; exact List.prefix_append _ _)]
      congr 1
      rw [← List.cons_append, List.drop_left]

/-- Wrapper for `replaceL_no_occ` at fuel `s.length`. -/
theorem replaceL_no_occ_self {p r q : List Char} (hp : p ≠ []) (hq : q ≠ [])
    (hE : Erad q r) (s : List Char) (hside : q = p ∨ ¬ q <:+: s) :
    ¬ q <:+: replaceL p r s :=
  replaceL_no_occ hp hq hE s.length s (Nat.le_refl _) hside

/-! ### The concrete side conditions, checked by computation -/

theorem oldQuestion_ne : oldQuestion ≠ [] := by decide
theorem oldOption_ne : oldOption ≠ [] := by decide
theorem oldAnswer_ne : oldAnswer ≠ [] := by decide

theorem erad_qq : Erad oldQuestion newQuestion := by decide
theorem erad_qo : Erad oldQuestion newOption := by decide
theorem erad_qa : Erad oldQuestion newAnswer := by decide
theorem erad_oo : Erad oldOption newOption := by decide
theorem erad_oa : Erad oldOption newAnswer := by decide
theorem erad_aa : Erad oldAnswer newAnswer := by decide

/-- After a full run, none of the three old pattern literals occurs in
the resulting content, whatever the input was. -/
theorem updateContent_no_old (c : List Char) :
    ¬ oldQuestion <:+: updateContent c ∧ ¬ oldOption <:+: updateContent c ∧
      ¬ oldAnswer <:+: updateContent c := by
  have h1A : ¬ oldQuestion <:+: replaceL oldQuestion newQuestion c :=
    replaceL_no_occ_self oldQuestion_ne oldQuestion_ne erad_qq c (Or.inl rfl)
  have h1B : ¬ oldQuestion <:+:
      replaceL oldOption newOption (replaceL oldQuestion newQuestion c) :=
    replaceL_no_occ_self oldOption_ne oldQuestion_ne erad_qo _ (Or.inr h1A)
  have h1C : ¬ oldQuestion <:+: updateContent c :=
    replaceL_no_occ_self oldAnswer_ne oldQuestion_ne erad_qa _ (Or.inr h1B)
  have h2B : ¬ oldOption <:+:
      replaceL oldOption newOption (replaceL oldQuestion newQuestion c) :=
    replaceL_no_occ_self oldOption_ne oldOption_ne erad_oo _ (Or.inl rfl)
  have h2C : ¬ oldOption <:+: updateContent c :=
    replaceL_no_occ_self oldAnswer_ne oldOption_ne erad_oa _ (Or.inr h2B)
  have h3C : ¬ oldAnswer <:+: updateContent c :=
    replaceL_no_occ_self oldAnswer_ne oldAnswer_ne erad_aa _ (Or.inl rfl)
  exact ⟨h1C, h2C, h3C⟩

/-! ### Claims -/

/-- Claim C1: for every input content `c`, the content the script writes
back equals `c` with the three replacement rules (questionNumber,
option, answer) applied as sequential literal substring replacements in
that fixed order, each rule applied to the cumulative result of the
prior rules (a left fold over the ordered rule list). -/
theorem claim_C1_sequential_rules (c : List Char) :
    (runScript (some c)).written = some (applyRules c) := rfl

/-- Claim C2: if the initial read fails (e.g. the path does not exist),
the run fails with no write to the target file and nothing printed: no
partial or corrupt output is ever produced from a failed read. -/
theorem claim_C2_failed_read_no_write :
    (runScript none).written = none ∧ (runScript none).printed = [] ∧
      (runScript none).failed = true :=
  ⟨rfl, rfl, rfl⟩

/-- Claim C3: the content transformation is idempotent: after one
application none of the three old substrings occurs in the result, so a
second application changes nothing. -/
theorem claim_C3_idempotent (c : List Char) :
    updateContent (updateContent c) = updateContent c := by
  obtain ⟨h1, h2, h3⟩ := updateContent_no_old c
  show replaceL oldAnswer newAnswer (replaceL oldOption newOption
    (replaceL oldQuestion newQuestion (updateContent c))) = updateContent c
  rw [replaceL_eq_self h1, replaceL_eq_self h2, replaceL_eq_self h3]

/-- Claim C4: if none of the three old substrings occurs in the input,
the script writes back content byte-for-byte identical to the input and
still prints the single confirmation line. -/
theorem claim_C4_no_pattern_identity (c : List Char)
    (h1 : ¬ oldQuestion <:+: c) (h2 : ¬ oldOption <:+: c)
    (h3 : ¬ oldAnswer <:+: c) :
    (runScript (some c)).written = some c ∧
      (runScript (some c)).printed = ["Updated all patterns"] := by
  constructor
  · show some (updateContent c) = some c
    unfold updateContent
    rw [replaceL_eq_self h1, replaceL_eq_self h2, replaceL_eq_self h3]
  · rfl

/-- Witness for C4 at the concrete input `"hello"`. -/
theorem claim_C4_no_pattern_identity_witness :
    (¬ oldQuestion <:+: "hello".data) ∧ (¬ oldOption <:+: "hello".data) ∧
      (¬ oldAnswer <:+: "hello".data) ∧
      ((runScript (some "hello".data)).written = some "hello".data ∧
        (runScript (some "hello".data)).printed = ["Updated all patterns"]) := by
  refine ⟨by decide, by decide, by decide, ?_⟩
  exact claim_C4_no_pattern_identity "hello".data (by decide) (by decide) (by decide)

/-- Claim C10: the run is deterministic: the written content and the
printed output are a pure function of the input content, so two runs on
equal inputs agree observably. -/
theorem claim_C10_deterministic (c1 c2 : List Char) (h : c1 = c2) :
    (runScript (some c1)).written = (runScript (some c2)).written ∧
      (runScript (some c1)).printed = (runScript (some c2)).printed := by
  subst h
  exact ⟨rfl, rfl⟩

/-- Witness for C10 at two equal concrete inputs. -/
theorem claim_C10_deterministic_witness :
    "abc".data = "abc".data ∧
      ((runScript (some "abc".data)).written =
          (runScript (some "abc".data)).written ∧
        (runScript (some "abc".data)).printed =
          (runScript (some "abc".data)).printed) :=
  ⟨rfl, claim_C10_deterministic "abc".data "abc".data rfl⟩

/-- Two replacement rules whose patterns can never overlap each other,
whose replacements can never host or complete a match of the other
pattern, commute. -/
theorem replaceL_comm {p1 r1 p2 r2 : List Char} (hp1 : p1 ≠ []) (hp2 : p2 ≠ [])
    (h12 : Incomp p1 p2) (h21 : Incomp p2 p1)
    (hr1 : Incomp r1 p2) (hr2 : Incomp r2 p1)
    (ht1 : TailCond p1 r2) (ht2 : TailCond p2 r1) :
    ∀ n s, s.length ≤ n →
      replaceL p2 r2 (replaceL p1 r1 s) = replaceL p1 r1 (replaceL p2 r2 s) := by
  obtain ⟨ht1a, ht1b⟩ := ht1
  obtain ⟨ht2a, ht2b⟩ := ht2
  intro n
  induction n with
  | zero =>
      intro s hs
      have hsnil : s = [] := List.length_eq_zero.mp (Nat.le_zero.mp hs)
      subst hsnil
      simp [replaceL_nil]
  | succ n ih =>
      intro s hs
      cases s with
      | nil => simp [replaceL_nil]
      | cons c s' =>
          by_cases hm1 : p1 <+: c :: s'
          · have hm2 : ¬ p2 <+: c :: s' := by
              intro hq
              rcases List.prefix_or_prefix_of_prefix hm1 hq with h | h
              · exact (h12 0 (List.length_pos.mpr hp1)).1 (by simpa using h)
              · exact (h12 0 (List.length_pos.mpr hp1)).2 (by simpa using h)
            have happ : p1 ++ (c :: s').drop p1.length = c :: s' :=
              List.prefix_iff_eq_append.mp hm1
            have hp1len : 1 ≤ p1.length := List.length_pos.mpr hp1
            have hdlen : ((c :: s').drop p1.length).length ≤ n := by
              rw [List.length_drop]
              simp only [List.length_cons]
              simp only [List.length_cons] at hs
              omega
            calc replaceL p2 r2 (replaceL p1 r1 (c :: s'))
                = replaceL p2 r2 (r1 ++ replaceL p1 r1 ((c :: s').drop p1.length)) := by
                  rw [replaceL_cons_pos p1 r1 c s' hp1 hm1]
              _ = r1 ++ replaceL p2 r2 (replaceL p1 r1 ((c :: s').drop p1.length)) :=
                  replaceL_pass_over r1 hr1 _
              _ = r1 ++ replaceL p1 r1 (replaceL p2 r2 ((c :: s').drop p1.length)) := by
                  rw [ih _ hdlen]
              _ = replaceL p1 r1 (p1 ++ replaceL p2 r2 ((c :: s').drop p1.length)) :=
                  (replaceL_head_match r1 hp1 _).symm
              _ = replaceL p1 r1 (replaceL p2 r2 (p1 ++ (c :: s').drop p1.length)) := by
                  rw [replaceL_pass_over p1 h12 _]
              _ = replaceL p1 r1 (replaceL p2 r2 (c :: s')) := by rw [happ]
          · by_cases hm2 : p2 <+: c :: s'
            · have happ : p2 ++ (c :: s').drop p2.length = c :: s' :=
                List.prefix_iff_eq_append.mp hm2
              have hp2len : 1 ≤ p2.length := List.length_pos.mpr hp2
              have hdlen : ((c :: s').drop p2.length).length ≤ n := by
                rw [List.length_drop]
                simp only [List.length_cons]
                simp only [List.length_cons] at hs
                omega
              calc replaceL p2 r2 (replaceL p1 r1 (c :: s'))
                  = replaceL p2 r2 (replaceL p1 r1 (p2 ++ (c :: s').drop p2.length)) := by
                    rw [happ]
                _ = replaceL p2 r2 (p2 ++ replaceL p1 r1 ((c :: s').drop p2.length)) := by
                    rw [replaceL_pass_over p2 h21 _]
                _ = r2 ++ replaceL p2 r2 (replaceL p1 r1 ((c :: s').drop p2.length)) :=
                    replaceL_head_match r2 hp2 _
                _ = r2 ++ replaceL p1 r1 (replaceL p2 r2 ((c :: s').drop p2.length)) := by
                    rw [ih _ hdlen]
                _ = replaceL p1 r1 (r2 ++ replaceL p2 r2 ((c :: s').drop p2.length)) :=
                    (replaceL_pass_over r2 hr2 _).symm
                _ = replaceL p1 r1 (replaceL p2 r2 (c :: s')) := by
                    rw [replaceL_cons_pos p2 r2 c s' hp2 hm2]
            · have hn1 : ¬ p1 <+: c :: replaceL p2 r2 s' := by
                intro hq
                cases p1 with
                | nil => exact hp1 rfl
                | cons a t =>
                    rw [List.cons_prefix_cons] at hq
                    obtain ⟨hac, htail⟩ := hq
                    apply hm1
                    rw [List.cons_prefix_cons]
                    refine ⟨hac, ?_⟩
                    by_cases hl : 1 < (a :: t).length
                    · have htr := replaceL_drop_transfer hp2 ht1a ht1b s'.length s'
                        (Nat.le_refl _) 1 (by omega) hl (by simpa using htail)
                      simpa using htr
                    · have htnil : t = [] := by
                        simp only [List.length_cons] at hl
                        exact List.length_eq_zero.mp (by omega)
                      rw [htnil]
                      exact List.nil_prefix
              have hn2 : ¬ p2 <+: c :: replaceL p1 r1 s' := by
                intro hq
                cases p2 with
                | nil => exact hp2 rfl
                | cons a t =>
                    rw [List.cons_prefix_cons] at hq
                    obtain ⟨hac, htail⟩ := hq
                    apply hm2
                    rw [List.cons_prefix_cons]
                    refine ⟨hac, ?_⟩
                    by_cases hl : 1 < (a :: t).length
                    · have htr := replaceL_drop_transfer hp1 ht2a ht2b s'.length s'
                        (Nat.le_refl _) 1 (by omega) hl (by simpa using htail)
                      simpa using htr
                    · have htnil : t = [] := by
                        simp only [List.length_cons] at hl
                        exact List.length_eq_zero.mp (by omega)
                      rw [htnil]
                      exact List.nil_prefix
              rw [replaceL_cons_neg p1 r1 c s' hm1, replaceL_cons_neg p2 r2 c s' hm2,
                replaceL_cons_neg p2 r2 c _ hn2, replaceL_cons_neg p1 r1 c _ hn1,
                ih s' (Nat.le_of_succ_le_succ hs)]

/-! ### Concrete overlap facts for the three rules -/

theorem incomp_q_o : Incomp oldQuestion oldOption := by decide
theorem incomp_o_q : Incomp oldOption oldQuestion := by decide
theorem incomp_nq_o : Incomp newQuestion oldOption := by decide
theorem incomp_no_q : Incomp newOption oldQuestion := by decide
theorem incomp_q_a : Incomp oldQuestion oldAnswer := by decide
theorem incomp_a_q : Incomp oldAnswer oldQuestion := by decide
theorem incomp_nq_a : Incomp newQuestion oldAnswer := by decide
theorem incomp_na_q : Incomp newAnswer oldQuestion := by decide
theorem incomp_o_a : Incomp oldOption oldAnswer := by decide
theorem incomp_a_o : Incomp oldAnswer oldOption := by decide
theorem incomp_no_a : Incomp newOption oldAnswer := by decide
theorem incomp_na_o : Incomp newAnswer oldOption := by decide

theorem tail_oq : TailCond oldOption newQuestion := by decide
theorem tail_aq : TailCond oldAnswer newQuestion := by decide
theorem tail_ao : TailCond oldAnswer newOption := by decide

/-- The questionNumber and option rules commute on every content. -/
theorem comm_QO (s : List Char) :
    replaceL oldOption newOption (replaceL oldQuestion newQuestion s) =
      replaceL oldQuestion newQuestion (replaceL oldOption newOption s) :=
  replaceL_comm oldQuestion_ne oldOption_ne incomp_q_o incomp_o_q
    incomp_nq_o incomp_no_q erad_qo.2.2 tail_oq s.length s (Nat.le_refl _)

/-- The questionNumber and answer rules commute on every content. -/
theorem comm_QA (s : List Char) :
    replaceL oldAnswer newAnswer (replaceL oldQuestion newQuestion s) =
      replaceL oldQuestion newQuestion (replaceL oldAnswer newAnswer s) :=
  replaceL_comm oldQuestion_ne oldAnswer_ne incomp_q_a incomp_a_q
    incomp_nq_a incomp_na_q erad_qa.2.2 tail_aq s.length s (Nat.le_refl _)

/-- The option and answer rules commute on every content. -/
theorem comm_OA (s : List Char) :
    replaceL oldAnswer newAnswer (replaceL oldOption newOption s) =
      replaceL oldOption newOption (replaceL oldAnswer newAnswer s) :=
  replaceL_comm oldOption_ne oldAnswer_ne incomp_o_a incomp_a_o
    incomp_no_a incomp_na_o erad_oa.2.2 tail_ao s.length s (Nat.le_refl _)

/-- Claim C5: applying the three replacement rules in any relative order
yields the same final content as the fixed order.  The spec asserts this
for inputs containing only the documented patterns; in fact the three
old/new substrings are so disjoint that the rules commute on every
input, which is proved here for all contents (the five non-canonical
orders, each equal to the canonical result). -/
theorem claim_C5_order_independent (c : List Char) :
    replaceL oldAnswer newAnswer (replaceL oldQuestion newQuestion
        (replaceL oldOption newOption c)) = updateContent c ∧
    replaceL oldOption newOption (replaceL oldAnswer newAnswer
        (replaceL oldQuestion newQuestion c)) = updateContent c ∧
    replaceL oldOption newOption (replaceL oldQuestion newQuestion
        (replaceL oldAnswer newAnswer c)) = updateContent c ∧
    replaceL oldQuestion newQuestion (replaceL oldAnswer newAnswer
        (replaceL oldOption newOption c)) = updateContent c ∧
    replaceL oldQuestion newQuestion (replaceL oldOption newOption
        (replaceL oldAnswer newAnswer c)) = updateContent c := by
  have hcanon : updateContent c = replaceL oldAnswer newAnswer
      (replaceL oldOption newOption (replaceL oldQuestion newQuestion c)) := rfl
  refine ⟨?_, ?_, ?_, ?_, ?_⟩
  · rw [hcanon, ← comm_QO c]
  · rw [hcanon, ← comm_OA (replaceL oldQuestion newQuestion c)]
  · rw [hcanon, comm_QO (replaceL oldAnswer newAnswer c), ← comm_OA c,
      ← comm_QA (replaceL oldOption newOption c), ← comm_QO c]
  · rw [hcanon, ← comm_QA (replaceL oldOption newOption c), ← comm_QO c]
  · rw [hcanon, ← comm_OA c, ← comm_QA (replaceL oldOption newOption c),
      ← comm_QO c]

/-! ### Split/replace characterization: every occurrence is rewritten -/

theorem intercalate_two (sep x y : List Char) (zs : List (List Char)) :
    List.intercalate sep (x :: y :: zs) = x ++ sep ++ List.intercalate sep (y :: zs) := by
  simp [List.intercalate, List.intersperse_cons_cons, List.append_assoc]

theorem intercalate_one (sep x : List Char) : List.intercalate sep [x] = x := by
  simp [List.intercalate]

theorem intercalate_cons_head (sep : List Char) (c : Char) (t : List Char)
    (ts : List (List Char)) :
    List.intercalate sep ((c :: t) :: ts) = c :: List.intercalate sep (t :: ts) := by
  cases ts with
  | nil => rw [intercalate_one, intercalate_one]
  | cons u ts' => rw [intercalate_two, intercalate_two]; simp

/-- Characterization of the scan: the input is the segments of
`splitOnL p` glued with `p`, the output is the same segments glued with
`r`, and no segment contains `p`.  This is exactly "every left-to-right
non-overlapping occurrence of the old substring is rewritten to the new
substring". -/
theorem splitOnL_spec {p : List Char} (r : List Char) (hp : p ≠ []) :
    ∀ n s, s.length ≤ n →
      s = List.intercalate p (splitOnL p s) ∧
      replaceL p r s = List.intercalate r (splitOnL p s) ∧
      ∀ t ∈ splitOnL p s, ¬ p <:+: t := by
  intro n
  induction n with
  | zero =>
      intro s hs
      have hsnil : s = [] := List.length_eq_zero.mp (Nat.le_zero.mp hs)
      subst hsnil
      refine ⟨by rw [splitOnL_nil, intercalate_one], by rw [splitOnL_nil, intercalate_one, replaceL_nil], ?_⟩
      intro t ht
      rw [splitOnL_nil] at ht
      simp only [List.mem_singleton] at ht
      subst ht
      intro hcon
      exact hp (List.eq_nil_of_infix_nil hcon)
  | succ n ih =>
      intro s hs
      cases s with
      | nil =>
          refine ⟨by rw [splitOnL_nil, intercalate_one], by rw [splitOnL_nil, intercalate_one, replaceL_nil], ?_⟩
          intro t ht
          rw [splitOnL_nil] at ht
          simp only [List.mem_singleton] at ht
          subst ht
          intro hcon
          exact hp (List.eq_nil_of_infix_nil hcon)
      | cons c s' =>
          by_cases hm : p <+: c :: s'
          · have hplen : 1 ≤ p.length := List.length_pos.mpr hp
            have hdlen : ((c :: s').drop p.length).length ≤ n := by
              rw [List.length_drop]
              simp only [List.length_cons]
              simp only [List.length_cons] at hs
              omega
            obtain ⟨ih1, ih2, ih3⟩ := ih _ hdlen
            obtain ⟨t, ts, hts⟩ : ∃ t ts, splitOnL p ((c :: s').drop p.length) = t :: ts := by
              rcases hsp : splitOnL p ((c :: s').drop p.length) with _ | ⟨t, ts⟩
              · exact absurd hsp (splitOnL_ne_nil p _)
              · exact ⟨t, ts, rfl⟩
            rw [splitOnL_cons_pos p c s' hp hm, hts]
            rw [hts] at ih1 ih2
            refine ⟨?_, ?_, ?_⟩
            · rw [intercalate_two, ← ih1]
              simp only [List.nil_append]
              exact (List.prefix_iff_eq_append.mp hm).symm
            · rw [replaceL_cons_pos p r c s' hp hm, intercalate_two, ← ih2]
              simp
            · intro t' ht'
              rcases List.mem_cons.mp ht' with h0 | h0
              · subst h0
                intro hcon
                exact hp (List.eq_nil_of_infix_nil hcon)
              · exact ih3 t' (by rw [hts]; exact h0)
          · obtain ⟨ih1, ih2, ih3⟩ := ih s' (Nat.le_of_succ_le_succ hs)
            obtain ⟨t, ts, hts⟩ : ∃ t ts, splitOnL p s' = t :: ts := by
              rcases hsp : splitOnL p s' with _ | ⟨t, ts⟩
              · exact absurd hsp (splitOnL_ne_nil p _)
              · exact ⟨t, ts, rfl⟩
            rw [splitOnL_cons_neg p c s' hm t ts hts]
            rw [hts] at ih1 ih2
            refine ⟨?_, ?_, ?_⟩
            · rw [intercalate_cons_head, ← ih1]
            · rw [replaceL_cons_neg p r c s' hm, intercalate_cons_head, ← ih2]
            · intro t' ht'
              rcases List.mem_cons.mp ht' with h0 | h0
              · subst h0
                intro hinf
                rcases List.infix_cons_iff.mp hinf with hpre | hinf'
                · have htpre : t <+: s' := by
                    cases ts with
                    | nil =>
                        rw [intercalate_one] at ih1
                        rw [ih1]
                    | cons u ts' =>
                        rw [intercalate_two] at ih1
                        rw [ih1, List.append_assoc]
                        exact List.prefix_append t _
                  exact hm (hpre.trans (List.cons_prefix_cons.mpr ⟨rfl, htpre⟩))
                · exact ih3 t (by rw [hts]; exact List.mem_cons_self t ts) hinf'
              · exact ih3 t' (by rw [hts]; exact List.mem_cons_of_mem t h0)

/-- Claim C9: each replacement rule replaces every (left-to-right,
non-overlapping) occurrence of its old substring: the input splits into
segments free of the old substring glued by the old substring, and the
output is the same segments glued by the new substring — all `n`
occurrences rewritten. -/
theorem claim_C9_all_occurrences (p r : List Char) (h : (p, r) ∈ rules)
    (s : List Char) :
    s = List.intercalate p (splitOnL p s) ∧
    replaceL p r s = List.intercalate r (splitOnL p s) ∧
    ∀ t ∈ splitOnL p s, ¬ p <:+: t := by
  have hp : p ≠ [] := by
    simp only [rules, List.mem_cons, List.mem_singleton, Prod.mk.injEq,
      List.not_mem_nil, or_false] at h
    rcases h with ⟨h1, _⟩ | ⟨h1, _⟩ | ⟨h1, _⟩
    · exact h1 ▸ oldQuestion_ne
    · exact h1 ▸ oldOption_ne
    · exact h1 ▸ oldAnswer_ne
  exact splitOnL_spec r hp s.length s (Nat.le_refl _)

/-- Witness for C9: the questionNumber rule on an input that is exactly
one occurrence of its old substring. -/
theorem claim_C9_all_occurrences_witness :
    ((oldQuestion, newQuestion) ∈ rules) ∧
      (oldQuestion = List.intercalate oldQuestion (splitOnL oldQuestion oldQuestion) ∧
        replaceL oldQuestion newQuestion oldQuestion =
          List.intercalate newQuestion (splitOnL oldQuestion oldQuestion) ∧
        ∀ t ∈ splitOnL oldQuestion oldQuestion, ¬ oldQuestion <:+: t) :=
  ⟨List.mem_cons_self _ _,
    claim_C9_all_occurrences oldQuestion newQuestion (List.mem_cons_self _ _) oldQuestion⟩

/-! ### Tracking one marked occurrence through the three rules -/

/-- A marked occurrence of a border-free pattern is rewritten: the scan
cannot reach the marked `p` mid-match, so it is replaced by `r`. -/
theorem replaceL_hit {p : List Char} (r : List Char) (hp : p ≠ [])
    (hb : BorderFree p) :
    ∀ n x, x.length ≤ n → ∀ y, ∃ x',
      replaceL p r (x ++ (p ++ y)) = x' ++ (r ++ replaceL p r y) := by
  intro n
  induction n with
  | zero =>
      intro x hx y
      have hxnil : x = [] := List.length_eq_zero.mp (Nat.le_zero.mp hx)
      subst hxnil
      exact ⟨[], by rw [List.nil_append, List.nil_append, replaceL_head_match r hp]⟩
  | succ n ih =>
      intro x hx y
      cases x with
      | nil =>
          exact ⟨[], by rw [List.nil_append, List.nil_append, replaceL_head_match r hp]⟩
      | cons c x'' =>
          rw [List.cons_append]
          by_cases hm : p <+: c :: (x'' ++ (p ++ y))
          · have hm' : p <+: (c :: x'') ++ (p ++ y) := by simpa using hm
            by_cases hpx : p <+: c :: x''
            · have hsplit : List.drop p.length (c :: (x'' ++ (p ++ y))) =
                  List.drop p.length (c :: x'') ++ (p ++ y) := by
                rw [← List.cons_append, List.drop_append_eq_append_drop,
                  Nat.sub_eq_zero_of_le hpx.length_le, List.drop_zero]
              have hdlen : (List.drop p.length (c :: x'')).length ≤ n := by
                have hplen : 1 ≤ p.length := List.length_pos.mpr hp
                rw [List.length_drop]
                simp only [List.length_cons]
                simp only [List.length_cons] at hx
                omega
              obtain ⟨x₀, hx₀⟩ := ih _ hdlen y
              refine ⟨r ++ x₀, ?_⟩
              rw [replaceL_cons_pos p r c _ hp hm, hsplit, hx₀]
              simp [List.append_assoc]
            · rcases prefix_cases_append hm' with h1 | h2
              · exact absurd h1 hpx
              · obtain ⟨p'', hp''⟩ := h2
                by_cases hpnil : p'' = []
                · subst hpnil
                  rw [List.append_nil] at hp''
                  refine ⟨r, ?_⟩
                  rw [← List.cons_append, hp'', replaceL_head_match r hp,
                    replaceL_head_match r hp]
                · exfalso
                  have h1 : (c :: x'') ++ p'' <+: (c :: x'') ++ (p ++ y) := by
                    rw [hp'']
                    exact hm'
                  have h2p : p'' <+: p ++ y := (List.prefix_append_right_inj _).mp h1
                  rcases prefix_cases_append h2p with h3 | h4
                  · have hk : p.drop (c :: x'').length = p'' := by
                      rw [← hp'']
                      exact List.drop_left _ _
                    have hklt : (c :: x'').length < p.length := by
                      rw [← hp'', List.length_append]
                      have : 1 ≤ p''.length := by
                        cases p'' with
                        | nil => exact absurd rfl hpnil
                        | cons a b => simp
                      omega
                    exact hb (c :: x'').length hklt (by simp) (hk ▸ h3)
                  · have hle : p.length ≤ p''.length := h4.length_le
                    have : p''.length < p.length := by
                      rw [← hp'', List.length_append]
                      simp only [List.length_cons]
                      omega
                    omega
          · obtain ⟨x₀, hx₀⟩ := ih x'' (Nat.le_of_succ_le_succ hx) y
            refine ⟨c :: x₀, ?_⟩
            rw [replaceL_cons_neg p r c _ hm, hx₀]
            simp

/-- A marked occurrence of a block `o` that cannot overlap any match of
`p` survives the scan untouched. -/
theorem replaceL_preserve {p : List Char} (r : List Char) {o : List Char}
    (hp : p ≠ []) (h1 : Incomp o p) (h2 : Incomp p o) :
    ∀ n x, x.length ≤ n → ∀ y, ∃ x',
      replaceL p r (x ++ (o ++ y)) = x' ++ (o ++ replaceL p r y) := by
  intro n
  induction n with
  | zero =>
      intro x hx y
      have hxnil : x = [] := List.length_eq_zero.mp (Nat.le_zero.mp hx)
      subst hxnil
      exact ⟨[], by rw [List.nil_append, List.nil_append, replaceL_pass_over o h1 y]⟩
  | succ n ih =>
      intro x hx y
      cases x with
      | nil =>
          exact ⟨[], by rw [List.nil_append, List.nil_append, replaceL_pass_over o h1 y]⟩
      | cons c x'' =>
          rw [List.cons_append]
          by_cases hm : p <+: c :: (x'' ++ (o ++ y))
          · have hm' : p <+: (c :: x'') ++ (o ++ y) := by simpa using hm
            by_cases hpx : p <+: c :: x''
            · have hsplit : List.drop p.length (c :: (x'' ++ (o ++ y))) =
                  List.drop p.length (c :: x'') ++ (o ++ y) := by
                rw [← List.cons_append, List.drop_append_eq_append_drop,
                  Nat.sub_eq_zero_of_le hpx.length_le, List.drop_zero]
              have hdlen : (List.drop p.length (c :: x'')).length ≤ n := by
                have hplen : 1 ≤ p.length := List.length_pos.mpr hp
                rw [List.length_drop]
                simp only [List.length_cons]
                simp only [List.length_cons] at hx
                omega
              obtain ⟨x₀, hx₀⟩ := ih _ hdlen y
              refine ⟨r ++ x₀, ?_⟩
              rw [replaceL_cons_pos p r c _ hp hm, hsplit, hx₀]
              simp [List.append_assoc]
            · rcases prefix_cases_append hm' with hcase | h2'
              · exact absurd hcase hpx
              · obtain ⟨p'', hp''⟩ := h2'
                by_cases hpnil : p'' = []
                · subst hpnil
                  rw [List.append_nil] at hp''
                  refine ⟨r, ?_⟩
                  rw [← List.cons_append, hp'', replaceL_head_match r hp,
                    replaceL_pass_over o h1 y]
                · exfalso
                  have hpre2 : (c :: x'') ++ p'' <+: (c :: x'') ++ (o ++ y) := by
                    rw [hp'']
                    exact hm'
                  have h2p : p'' <+: o ++ y := (List.prefix_append_right_inj _).mp hpre2
                  have hk : p.drop (c :: x'').length = p'' := by
                    rw [← hp'']
                    exact List.drop_left _ _
                  have hklt : (c :: x'').length < p.length := by
                    rw [← hp'', List.length_append]
                    have : 1 ≤ p''.length := by
                      cases p'' with
                      | nil => exact absurd rfl hpnil
                      | cons a b => simp
                    omega
                  rcases prefix_cases_append h2p with h3 | h4
                  · exact (h2 (c :: x'').length hklt).1 (hk ▸ h3)
                  · exact (h2 (c :: x'').length hklt).2 (hk ▸ h4)
          · obtain ⟨x₀, hx₀⟩ := ih x'' (Nat.le_of_succ_le_succ hx) y
            refine ⟨c :: x₀, ?_⟩
            rw [replaceL_cons_neg p r c _ hm, hx₀]
            simp

theorem bf_o : BorderFree oldOption := by decide
theorem bf_a : BorderFree oldAnswer := by decide
theorem incomp_a_no : Incomp oldAnswer newOption := by decide

/-- Claim C7: any content containing the old option substring is
rewritten so that this occurrence reads as the new option substring:
the questionNumber rule passes over it, the option rule rewrites it, and
the answer rule leaves the new text alone. -/
theorem claim_C7_option_rewritten (x y : List Char) :
    ∃ x' y', updateContent (x ++ (oldOption ++ y)) = x' ++ (newOption ++ y') := by
  obtain ⟨x₁, h₁⟩ := replaceL_preserve newQuestion oldQuestion_ne incomp_o_q incomp_q_o
    x.length x (Nat.le_refl _) y
  obtain ⟨x₂, h₂⟩ := replaceL_hit newOption oldOption_ne bf_o
    x₁.length x₁ (Nat.le_refl _) (replaceL oldQuestion newQuestion y)
  obtain ⟨x₃, h₃⟩ := replaceL_preserve newAnswer oldAnswer_ne incomp_no_a incomp_a_no
    x₂.length x₂ (Nat.le_refl _)
    (replaceL oldOption newOption (replaceL oldQuestion newQuestion y))
  refine ⟨x₃, replaceL oldAnswer newAnswer (replaceL oldOption newOption
    (replaceL oldQuestion newQuestion y)), ?_⟩
  show replaceL oldAnswer newAnswer (replaceL oldOption newOption
    (replaceL oldQuestion newQuestion (x ++ (oldOption ++ y)))) = _
  rw [h₁, h₂, h₃]

/-- Claim C8: any content containing the old answer substring is
rewritten so that this occurrence reads the same with `([A-D])` replaced
by `([A-D0-9])`: the first two rules pass over it and the answer rule
rewrites it. -/
theorem claim_C8_answer_rewritten (x y : List Char) :
    ∃ x' y', updateContent (x ++ (oldAnswer ++ y)) = x' ++ (newAnswer ++ y') := by
  obtain ⟨x₁, h₁⟩ := replaceL_preserve newQuestion oldQuestion_ne incomp_a_q incomp_q_a
    x.length x (Nat.le_refl _) y
  obtain ⟨x₂, h₂⟩ := replaceL_preserve newOption oldOption_ne incomp_a_o incomp_o_a
    x₁.length x₁ (Nat.le_refl _) (replaceL oldQuestion newQuestion y)
  obtain ⟨x₃, h₃⟩ := replaceL_hit newAnswer oldAnswer_ne bf_a
    x₂.length x₂ (Nat.le_refl _)
    (replaceL oldOption newOption (replaceL oldQuestion newQuestion y))
  refine ⟨x₃, replaceL oldAnswer newAnswer (replaceL oldOption newOption
    (replaceL oldQuestion newQuestion y)), ?_⟩
  show replaceL oldAnswer newAnswer (replaceL oldOption newOption
    (replaceL oldQuestion newQuestion (x ++ (oldAnswer ++ y)))) = _
  rw [h₁, h₂, h₃]

/-! ### Lines of the content -/

/-- The newline character, the line separator of the target file. -/
def nl : Char := Char.ofNat 10

theorem singleton_infix_iff {a : Char} {l : List Char} : [a] <:+: l ↔ a ∈ l := by
  constructor
  · rintro ⟨u, v, rfl⟩
    simp
  · intro h
    obtain ⟨u, v, rfl⟩ := List.append_of_mem h
    exact ⟨u, v, by simp⟩

/-- With an empty pattern the scan copies its input (the script never
calls replace with an empty pattern). -/
theorem replaceL_nil_pat (r : List Char) : ∀ s, replaceL [] r s = s := by
  intro s
  induction s with
  | nil => rfl
  | cons c s' ih =>
      show replaceFuel [] r (s'.length + 1) (c :: s') = c :: s'
      rw [replaceFuel]
      simp only [List.isEmpty_nil, Bool.not_true, Bool.false_and,
        Bool.false_eq_true, if_false]
      exact congrArg (c :: ·) ih

/-- Characters of the output come from the input or the replacement. -/
theorem mem_replaceL {p r : List Char} {a : Char} :
    ∀ n s, s.length ≤ n → a ∈ replaceL p r s → a ∈ s ∨ a ∈ r := by
  intro n
  induction n with
  | zero =>
      intro s hs h
      have hsnil : s = [] := List.length_eq_zero.mp (Nat.le_zero.mp hs)
      subst hsnil
      rw [replaceL_nil] at h
      simp at h
  | succ n ih =>
      intro s hs h
      cases s with
      | nil =>
          rw [replaceL_nil] at h
          simp at h
      | cons c s' =>
          by_cases hp : p = []
          · subst hp
            rw [replaceL_nil_pat] at h
            exact Or.inl h
          · by_cases hm : p <+: c :: s'
            · rw [replaceL_cons_pos p r c s' hp hm] at h
              rcases List.mem_append.mp h with h1 | h2
              · exact Or.inr h1
              · have hplen : 1 ≤ p.length := List.length_pos.mpr hp
                have hdlen : ((c :: s').drop p.length).length ≤ n := by
                  rw [List.length_drop]
                  simp only [List.length_cons]
                  simp only [List.length_cons] at hs
                  omega
                rcases ih _ hdlen h2 with h3 | h3
                · exact Or.inl (List.mem_of_mem_drop h3)
                · exact Or.inr h3
            · rw [replaceL_cons_neg p r c s' hm] at h
              rcases List.mem_cons.mp h with h1 | h2
              · exact Or.inl (h1 ▸ List.mem_cons_self c s')
              · rcases ih s' (Nat.le_of_succ_le_succ hs) h2 with h3 | h3
                · exact Or.inl (List.mem_cons_of_mem c h3)
                · exact Or.inr h3

theorem updateContent_mem {a : Char} {c : List Char}
    (h : a ∈ updateContent c) :
    a ∈ c ∨ a ∈ newQuestion ∨ a ∈ newOption ∨ a ∈ newAnswer := by
  rcases mem_replaceL _ _ (Nat.le_refl _) h with h1 | h1
  · rcases mem_replaceL _ _ (Nat.le_refl _) h1 with h2 | h2
    · rcases mem_replaceL _ _ (Nat.le_refl _) h2 with h3 | h3
      · exact Or.inl h3
      · exact Or.inr (Or.inl h3)
    · exact Or.inr (Or.inr (Or.inl h2))
  · exact Or.inr (Or.inr (Or.inr h1))

theorem updateContent_nl_free {c : List Char} (h : nl ∉ c) :
    nl ∉ updateContent c := by
  intro hmem
  rcases updateContent_mem hmem with h1 | h2 | h3 | h4
  · exact h h1
  · exact absurd h2 (by decide)
  · exact absurd h3 (by decide)
  · exact absurd h4 (by decide)

/-- A pattern-free content is a single segment. -/
theorem splitOnL_no_occ {p : List Char} (t : List Char) (h : ¬ p <:+: t) :
    splitOnL p t = [t] := by
  induction t with
  | nil => rw [splitOnL_nil]
  | cons c t' ih =>
      have hnp : ¬ p <+: c :: t' := fun hpp => h hpp.isInfix
      have ht' := ih fun hi => h (List.infix_cons hi)
      rw [splitOnL_cons_neg p c t' hnp t' [] ht']

/-- Splitting after a separator-free block peels off the block. -/
theorem splitOnL_boundary {a : Char} (b : List Char) :
    ∀ t, a ∉ t → splitOnL [a] (t ++ a :: b) = t :: splitOnL [a] b := by
  intro t
  induction t with
  | nil =>
      intro _
      rw [List.nil_append,
        splitOnL_cons_pos [a] a b (by simp) ⟨b, rfl⟩]
      simp
  | cons c t' ih =>
      intro hmem
      have hc : c ≠ a := by
        intro hca
        exact hmem (hca ▸ List.mem_cons_self c t')
      have hnp : ¬ [a] <+: c :: (t' ++ a :: b) := by
        intro hpp
        rw [List.cons_prefix_cons] at hpp
        exact hc hpp.1.symm
      have ht' : a ∉ t' := fun hm => hmem (List.mem_cons_of_mem c hm)
      rw [List.cons_append,
        splitOnL_cons_neg [a] c (t' ++ a :: b) hnp t' (splitOnL [a] b) (ih ht')]

/-- Splitting is a left inverse of gluing separator-free segments. -/
theorem split_intercalate_inv {a : Char} :
    ∀ parts : List (List Char), parts ≠ [] → (∀ t ∈ parts, a ∉ t) →
      splitOnL [a] (List.intercalate [a] parts) = parts := by
  intro parts
  induction parts with
  | nil =>
      intro h _
      exact absurd rfl h
  | cons t ts ih =>
      intro _ hfree
      cases ts with
      | nil =>
          rw [intercalate_one]
          exact splitOnL_no_occ t fun hi =>
            hfree t (List.mem_cons_self t []) (singleton_infix_iff.mp hi)
      | cons u ts' =>
          rw [intercalate_two]
          have hstep : t ++ [a] ++ List.intercalate [a] (u :: ts') =
              t ++ a :: List.intercalate [a] (u :: ts') := by simp
          rw [hstep,
            splitOnL_boundary _ t (hfree t (List.mem_cons_self t _)),
            ih (by simp) fun t' ht' => hfree t' (List.mem_cons_of_mem t ht')]

/-- A replacement whose pattern avoids a character distributes over that
character. -/
theorem replaceL_dist_append {p r : List Char} (hp : p ≠ []) {a : Char}
    (ha : a ∉ p) :
    ∀ n u, u.length ≤ n → ∀ v,
      replaceL p r (u ++ a :: v) = replaceL p r u ++ a :: replaceL p r v := by
  have hnav : ∀ v : List Char, ¬ p <+: a :: v := by
    intro v hpp
    cases p with
    | nil => exact hp rfl
    | cons p0 pt =>
        rw [List.cons_prefix_cons] at hpp
        exact ha (hpp.1 ▸ List.mem_cons_self p0 pt)
  intro n
  induction n with
  | zero =>
      intro u hu v
      have hunil : u = [] := List.length_eq_zero.mp (Nat.le_zero.mp hu)
      subst hunil
      rw [List.nil_append, replaceL_nil, List.nil_append,
        replaceL_cons_neg p r a v (hnav v)]
  | succ n ih =>
      intro u hu v
      cases u with
      | nil =>
          rw [List.nil_append, replaceL_nil, List.nil_append,
            replaceL_cons_neg p r a v (hnav v)]
      | cons c u'' =>
          rw [List.cons_append]
          by_cases hm : p <+: c :: (u'' ++ a :: v)
          · have hm' : p <+: (c :: u'') ++ (a :: v) := by simpa using hm
            have hpx : p <+: c :: u'' := by
              rcases prefix_cases_append hm' with h1 | h2
              · exact h1
              · obtain ⟨p'', hp''⟩ := h2
                by_cases hpnil : p'' = []
                · subst hpnil
                  rw [List.append_nil] at hp''
                  rw [← hp'']
                · exfalso
                  have hpre2 : (c :: u'') ++ p'' <+: (c :: u'') ++ (a :: v) := by
                    rw [hp'']
                    exact hm'
                  have h2p : p'' <+: a :: v :=
                    (List.prefix_append_right_inj _).mp hpre2
                  cases p'' with
                  | nil => exact hpnil rfl
                  | cons q0 qt =>
                      rw [List.cons_prefix_cons] at h2p
                      apply ha
                      rw [← hp'', h2p.1]
                      exact List.mem_append_right _ (List.mem_cons_self a qt)
            have hsplit : List.drop p.length (c :: (u'' ++ a :: v)) =
                List.drop p.length (c :: u'') ++ a :: v := by
              rw [← List.cons_append, List.drop_append_eq_append_drop,
                Nat.sub_eq_zero_of_le hpx.length_le, List.drop_zero]
            have hdlen : (List.drop p.length (c :: u'')).length ≤ n := by
              have hplen : 1 ≤ p.length := List.length_pos.mpr hp
              rw [List.length_drop]
              simp only [List.length_cons]
              simp only [List.length_cons] at hu
              omega
            rw [replaceL_cons_pos p r c _ hp hm, hsplit, ih _ hdlen v,
              replaceL_cons_pos p r c u'' hp hpx]
            simp [List.append_assoc]
          · have hnp2 : ¬ p <+: c :: u'' := by
              intro hx
              apply hm
              refine hx.trans ?_
              rw [List.cons_prefix_cons]
              exact ⟨rfl, List.prefix_append u'' _⟩
            rw [replaceL_cons_neg p r c _ hm, ih u'' (Nat.le_of_succ_le_succ hu) v,
              replaceL_cons_neg p r c u'' hnp2]
            simp

/-- A replacement whose pattern avoids the separator acts line by line. -/
theorem replaceL_dist_intercalate {p r : List Char} (hp : p ≠ []) {a : Char}
    (ha : a ∉ p) :
    ∀ parts : List (List Char),
      replaceL p r (List.intercalate [a] parts) =
        List.intercalate [a] (List.map (replaceL p r) parts) := by
  intro parts
  induction parts with
  | nil => simp [List.intercalate, replaceL_nil]
  | cons t ts ih =>
      cases ts with
      | nil =>
          rw [intercalate_one, List.map_cons, List.map_nil, intercalate_one]
      | cons u ts' =>
          rw [intercalate_two]
          have hstep : t ++ [a] ++ List.intercalate [a] (u :: ts') =
              t ++ a :: List.intercalate [a] (u :: ts') := by simp
          rw [hstep, replaceL_dist_append hp ha t.length t (Nat.le_refl _) _, ih]
          simp [List.map_cons, intercalate_two, List.append_assoc]

/-- The whole transformation acts line by line. -/
theorem updateContent_lines (c : List Char) :
    splitOnL [nl] (updateContent c) =
      List.map updateContent (splitOnL [nl] c) := by
  have hpnl : ([nl] : List Char) ≠ [] := by simp
  obtain ⟨h1, _, h3⟩ := splitOnL_spec (p := [nl]) [nl] hpnl c.length c (Nat.le_refl _)
  have hfree : ∀ t ∈ splitOnL [nl] c, nl ∉ t := fun t ht hmem =>
    h3 t ht (singleton_infix_iff.mpr hmem)
  have hdist : updateContent (List.intercalate [nl] (splitOnL [nl] c)) =
      List.intercalate [nl] (List.map updateContent (splitOnL [nl] c)) := by
    show replaceL oldAnswer newAnswer (replaceL oldOption newOption
      (replaceL oldQuestion newQuestion _)) = _
    rw [replaceL_dist_intercalate oldQuestion_ne (by decide),
      replaceL_dist_intercalate oldOption_ne (by decide),
      replaceL_dist_intercalate oldAnswer_ne (by decide),
      List.map_map, List.map_map]
    rfl
  have hmapfree : ∀ t ∈ List.map updateContent (splitOnL [nl] c), nl ∉ t := by
    intro t ht
    obtain ⟨u, hu, rfl⟩ := List.mem_map.mp ht
    exact updateContent_nl_free (hfree u hu)
  have hne : List.map updateContent (splitOnL [nl] c) ≠ [] := by
    intro hcon
    rw [List.map_eq_nil_iff] at hcon
    exact splitOnL_ne_nil [nl] c hcon
  conv_lhs => rw [h1]
  rw [hdist]
  exact split_intercalate_inv _ hne hmapfree

/-- A two-line content: an old option line followed by an old
questionNumber line. -/
def twoLineContent : List Char := oldOption ++ nl :: oldQuestion

/-- Counterexample to claim C6 as stated: this content contains the old
questionNumber line, yet after the run its *other* line is changed too
(the option line is rewritten), so "all other lines of the content are
unchanged" fails. -/
theorem claim_C6_counterexample :
    splitOnL [nl] twoLineContent = [oldOption, oldQuestion] ∧
    splitOnL [nl] (updateContent twoLineContent) = [newOption, newQuestion] ∧
    newOption ≠ oldOption := by
  refine ⟨by decide, by decide, by decide⟩

/-- Claim C6, amended: the transformation acts line by line; the line
equal to the old questionNumber literal reads as the new literal
afterwards, and all other lines *that contain none of the three old
substrings* are unchanged (lines containing another old substring are
rewritten by the corresponding rule). -/
theorem claim_C6_question_line (c : List Char)
    (_hmem : oldQuestion ∈ splitOnL [nl] c) :
    splitOnL [nl] (updateContent c) =
        List.map updateContent (splitOnL [nl] c) ∧
    updateContent oldQuestion = newQuestion ∧
    ∀ l ∈ splitOnL [nl] c, ¬ oldQuestion <:+: l → ¬ oldOption <:+: l →
      ¬ oldAnswer <:+: l → updateContent l = l := by
  refine ⟨updateContent_lines c, by decide, ?_⟩
  intro l _ h1 h2 h3
  show replaceL oldAnswer newAnswer (replaceL oldOption newOption
    (replaceL oldQuestion newQuestion l)) = l
  rw [replaceL_eq_self h1, replaceL_eq_self h2, replaceL_eq_self h3]

/-- Witness for the amended C6 at the one-line content consisting of the
old questionNumber line. -/
theorem claim_C6_question_line_witness :
    (oldQuestion ∈ splitOnL [nl] oldQuestion) ∧
      (splitOnL [nl] (updateContent oldQuestion) =
          List.map updateContent (splitOnL [nl] oldQuestion) ∧
        updateContent oldQuestion = newQuestion ∧
        ∀ l ∈ splitOnL [nl] oldQuestion, ¬ oldQuestion <:+: l →
          ¬ oldOption <:+: l → ¬ oldAnswer <:+: l → updateContent l = l) :=
  ⟨by decide, claim_C6_question_line oldQuestion (by decide)⟩

end UpdatePatterns
